import Mathlib

/-!
Shallow embedding of the calendar agent in `src/agent.py`.

Python strings are modelled by Lean `String` (a wrapper around `List Char`),
and the Python string methods used by the source (`lower`, `split(sep)`,
`split()`, `strip`, `replace`, substring membership `in`) are re-implemented
below by structural recursion over the character list, following CPython
semantics (ASCII fragment for `lower`).

A Python event dict is modelled by `Event`, a record of four optional string
fields: `none` models an absent key.  The persisted JSON file is modelled at
the level of parsed JSON values (`J`); `AgentState` packs the in-memory list
`calendar_data` together with the backing file content (`none` = file absent).
A raised Python exception is modelled by returning `some errMsg` next to the
state the object is left in when the exception propagates.
-/

namespace CalendarAgent

/-- ASCII fragment of Python `str.lower` on one character: the code points of
`A`–`Z` are 65–90 and are shifted by 32 to `a`–`z`; everything else is kept. -/
def pyCharLower (c : Char) : Char :=
  if 65 ≤ c.toNat ∧ c.toNat ≤ 90 then Char.ofNat (c.toNat + 32) else c

/-- Python `message.lower()` (ASCII fragment), as used at the top of
`process_message`. -/
def pyLower (s : String) : String := String.mk (s.data.map pyCharLower)

/-- Whitespace characters recognised by Python `str.strip()` / `str.split()`. -/
def isPySpace (c : Char) : Bool :=
  c == ' ' || c == '\t' || c == '\n' || c == '\r' || c == '\x0b' || c == '\x0c'

/-- Helper for `goSplit`: prepend a character to the first chunk. -/
def consHead (a : Char) : List (List Char) → List (List Char)
  | [] => [[a]]
  | h :: t => (a :: h) :: t

/-- Scan of Python `str.split(sep)` for the non-empty separator `c0 :: cs`:
a non-overlapping left-to-right scan.  `skip` counts separator characters
still to be consumed silently after a match was recognised. -/
def goSplit (c0 : Char) (cs : List Char) : Nat → List Char → List (List Char)
  | _, [] => [[]]
  | 0, a :: l =>
    if (c0 :: cs).isPrefixOf (a :: l) then
      [] :: goSplit c0 cs cs.length l
    else
      consHead a (goSplit c0 cs 0 l)
  | skip + 1, _ :: l => goSplit c0 cs skip l

/-- Python `s.split(sep)` over character lists.  Python raises on an empty
separator; the source only ever splits on `"on"`, so the empty case is
irrelevant and maps to the identity chunking. -/
def listSplitOn (sep l : List Char) : List (List Char) :=
  match sep with
  | [] => [l]
  | c :: cs => goSplit c cs 0 l

/-- Python `s.split(sep)` on strings, e.g. `message.split('on')`. -/
def pySplit (s sep : String) : List String :=
  (listSplitOn sep.data s.data).map String.mk

/-- Python substring test `sub in s` over character lists. -/
def listContains (sub : List Char) : List Char → Bool
  | [] => sub.isEmpty
  | a :: l => sub.isPrefixOf (a :: l) || listContains sub l

/-- Python substring test `sub in s`, e.g. `'add event' in message`. -/
def pyContainsB (s sub : String) : Bool := listContains sub.data s.data

/-- Python `sep.join(parts)` over character lists. -/
def joinSep (sep : List Char) : List (List Char) → List Char
  | [] => []
  | [p] => p
  | p :: q :: rest => p ++ sep ++ joinSep sep (q :: rest)

/-- Python `s.replace(old, new)` for the non-empty `old` patterns used in the
source: CPython replaces the non-overlapping left-to-right occurrences, which
equals `new.join(s.split(old))`. -/
def pyReplace (s old new : String) : String :=
  match old.data with
  | [] => s
  | c :: cs => String.mk (joinSep new.data (goSplit c cs 0 s.data))

/-- Python `s.strip()`: drop whitespace from both ends. -/
def pyStrip (s : String) : String :=
  String.mk (((s.data.dropWhile isPySpace).reverse.dropWhile isPySpace).reverse)

/-- Worker for Python `s.split()` (no argument): split on whitespace runs and
drop empty chunks; `acc` holds the current word reversed. -/
def wordsGo (acc : List Char) : List Char → List (List Char)
  | [] => if acc.isEmpty then [] else [acc.reverse]
  | c :: l =>
    if isPySpace c then
      if acc.isEmpty then wordsGo [] l else acc.reverse :: wordsGo [] l
    else wordsGo (c :: acc) l

/-- Python `s.split()` (no argument), e.g. `parts[1].strip().split()`. -/
def pySplitWs (s : String) : List String := (wordsGo [] s.data).map String.mk

/-- Python event dict: each field is `some v` when the key is present with
string value `v`, and `none` when the key is absent. -/
structure Event where
  title : Option String
  date : Option String
  time : Option String
  description : Option String
deriving DecidableEq

/-- Parsed JSON values, restricted to the shapes the agent reads and writes. -/
inductive J where
  | str : String → J
  | arr : List J → J
  | obj : List (String × J) → J

/-- Python `event[k]` / `k in event` lookup for the four modelled keys. -/
def evtGet (e : Event) (k : String) : Option String :=
  if k = "title" then e.title
  else if k = "date" then e.date
  else if k = "time" then e.time
  else if k = "description" then e.description
  else none

/-- The `required_keys` list of `add_event`. -/
def requiredKeys : List String := ["title", "date", "time"]

/-- State of an `AICalendarAgent` object: the in-memory `calendar_data` list
and the content of the backing JSON file (`none` = file absent). -/
structure AgentState where
  calendar_data : List Event
  file : Option J

/-- Serialize one optional field as a JSON object entry (absent key = no entry). -/
def optPair (k : String) : Option String → List (String × J)
  | none => []
  | some v => [(k, J.str v)]

/-- Serialization of one event dict by `json.dump`. -/
def encodeEvent (e : Event) : J :=
  J.obj (optPair "title" e.title ++ optPair "date" e.date ++
    optPair "time" e.time ++ optPair "description" e.description)

/-- Serialization of the whole `calendar_data` list. -/
def encodeEvents (l : List Event) : J := J.arr (l.map encodeEvent)

/-- First-match key lookup in a JSON object. -/
def lookupJ (k : String) : List (String × J) → Option J
  | [] => none
  | p :: rest => if p.1 = k then some p.2 else lookupJ k rest

/-- Read one optional string field from a JSON object: absent key is fine
(`some none`); a non-string value is outside the modelled shapes (`none`). -/
def getStrField (kvs : List (String × J)) (k : String) : Option (Option String) :=
  match lookupJ k kvs with
  | none => some none
  | some (J.str v) => some (some v)
  | some _ => none

/-- Parse one event dict from a JSON value. -/
def decodeEvent : J → Option Event
  | J.obj kvs =>
    match getStrField kvs "title", getStrField kvs "date",
          getStrField kvs "time", getStrField kvs "description" with
    | some t, some d, some ti, some de => some ⟨t, d, ti, de⟩
    | _, _, _, _ => none
  | _ => none

/-- Parse a list of event dicts. -/
def decodeEventList : List J → Option (List Event)
  | [] => some []
  | j :: rest =>
    match decodeEvent j, decodeEventList rest with
    | some e, some l => some (e :: l)
    | _, _ => none

/-- Parse the file content as a list of events. -/
def decodeEvents : J → Option (List Event)
  | J.arr js => decodeEventList js
  | _ => none

/-- Model of `load_calendar`: a missing file yields the empty list
(`FileNotFoundError` branch); otherwise the JSON content is parsed.  The inner
`Option` marks file contents outside the modelled event-list shape. -/
def load_calendar : Option J → Option (List Event)
  | none => some []
  | some j => decodeEvents j

/-- Model of `save_calendar`: `json.dump(self.calendar_data, f)` overwrites
the file with the serialized current list. -/
def save_calendar (s : AgentState) : AgentState :=
  ⟨s.calendar_data, some (encodeEvents s.calendar_data)⟩

/-- Message of the `ValueError` raised by `add_event`. -/
def valueErrMsg : String := "ValueError: Event must have title, date, and time"

/-- Message modelling the `KeyError` on `event[ 'title' ]`. -/
def keyErrTitle : String := "KeyError: title"

/-- Message modelling the `KeyError` on `event[ 'date' ]`. -/
def keyErrDate : String := "KeyError: date"

/-- Message modelling an `IndexError` from `parts[1]` / `date_time[0]`. -/
def indexErrMsg : String := "IndexError: list index out of range"

/-- Model of `add_event`: validate that the three required keys are present
(`all(key in event for key in required_keys)`), else raise `ValueError`
before any mutation; on success append and persist immediately. -/
def add_event (e : Event) (s : AgentState) : AgentState × Option String :=
  if !(requiredKeys.all fun k => (evtGet e k).isSome) then
    (s, some valueErrMsg)
  else
    (save_calendar ⟨s.calendar_data ++ [e], s.file⟩, none)

/-- Model of the list comprehension in `remove_event`: keep the events whose
`title` differs from `t`, raising `KeyError` if any event lacks the key.  The
comprehension is fully evaluated before `self.calendar_data` is reassigned,
so an error leaves the state untouched. -/
def tryFilterTitleNe (t : String) : List Event → Except String (List Event)
  | [] => Except.ok []
  | e :: rest =>
    match e.title with
    | none => Except.error keyErrTitle
    | some u =>
      match tryFilterTitleNe t rest with
      | Except.error msg => Except.error msg
      | Except.ok l => Except.ok (if u = t then l else e :: l)

/-- Model of `remove_event`: filter out all exact title matches and persist;
a `KeyError` during the comprehension leaves both the list and the file as
they were. -/
def remove_event (t : String) (s : AgentState) : AgentState × Option String :=
  match tryFilterTitleNe t s.calendar_data with
  | Except.error msg => (s, some msg)
  | Except.ok l => (save_calendar ⟨l, s.file⟩, none)

/-- Model of the list comprehension in `get_events_for_date`: keep the events
whose `date` equals `d`, raising `KeyError` if any event lacks the key. -/
def tryFilterDateEq (d : String) : List Event → Except String (List Event)
  | [] => Except.ok []
  | e :: rest =>
    match e.date with
    | none => Except.error keyErrDate
    | some u =>
      match tryFilterDateEq d rest with
      | Except.error msg => Except.error msg
      | Except.ok l => Except.ok (if u = d then e :: l else l)

/-- Model of `get_events_for_date`: a pure read of `calendar_data` (the method
mutates nothing: its body is a single `return` of a list comprehension). -/
def get_events_for_date (d : String) (cal : List Event) : Except String (List Event) :=
  tryFilterDateEq d cal

/-- Python `date_time[1] if len(date_time) > 1 else '09:00'` applied to the
tail of `date_time`. -/
def headD : List String → String → String
  | [], dflt => dflt
  | a :: _, _ => a

/-- Model of `process_message`: lowercase the input, then dispatch on the two
hardcoded markers; the add branch splits on the substring `'on'` and reads
`parts[1]` and `date_time[0]` unguarded (modelled `IndexError`s). -/
def process_message (msg : String) (s : AgentState) : AgentState × Option String :=
  let message := pyLower msg
  if pyContainsB message "add event" then
    match pySplit message "on" with
    | [] => (s, some indexErrMsg)
    | [_] => (s, some indexErrMsg)
    | p0 :: p1 :: _ =>
      match pySplitWs (pyStrip p1) with
      | [] => (s, some indexErrMsg)
      | d :: rest =>
        add_event ⟨some (pyStrip (pyReplace p0 "add event" "")), some d,
          some (headD rest "09:00"), some ""⟩ s
  else if pyContainsB message "remove event" then
    remove_event (pyStrip (pyReplace message "remove event" "")) s
  else (s, none)

/-- Agent state right after `__init__` when the backing file does not exist. -/
def initState : AgentState := ⟨[], none⟩

/-- Strings that ASCII lowercasing leaves unchanged character by character,
i.e. strings with no uppercase ASCII letter. -/
@[reducible] def strFixed (s : String) : Prop := ∀ c ∈ s.data, pyCharLower c = c

/-- An optional field whose value, when present, contains no uppercase ASCII
letter. -/
def optFixed (o : Option String) : Prop := ∀ v, o = some v → strFixed v

/-- An event all four of whose fields are free of uppercase ASCII letters. -/
def eventLowercase (e : Event) : Prop :=
  optFixed e.title ∧ optFixed e.date ∧ optFixed e.time ∧ optFixed e.description

theorem char_toNat_ofNat_valid (n : Nat) (h : Nat.isValidChar n) :
    (Char.ofNat n).toNat = n := by
  rw [Char.ofNat, dif_pos h]
  rfl

theorem pyCharLower_idem (c : Char) : pyCharLower (pyCharLower c) = pyCharLower c := by
  unfold pyCharLower
  by_cases h : 65 ≤ c.toNat ∧ c.toNat ≤ 90
  · have hv : Nat.isValidChar (c.toNat + 32) := Or.inl (by omega)
    have ht : (Char.ofNat (c.toNat + 32)).toNat = c.toNat + 32 :=
      char_toNat_ofNat_valid _ hv
    rw [if_pos h, ht, if_neg (by omega : ¬(65 ≤ c.toNat + 32 ∧ c.toNat + 32 ≤ 90))]
  · rw [if_neg h, if_neg h]

theorem strFixed_pyLower (m : String) : strFixed (pyLower m) := by
  intro c hc
  simp only [pyLower, List.mem_map] at hc
  obtain ⟨a, _, rfl⟩ := hc
  exact pyCharLower_idem a

theorem mem_consHead {a x : Char} {parts : List (List Char)} {p : List Char}
    (hp : p ∈ consHead a parts) (hx : x ∈ p) : x = a ∨ ∃ q ∈ parts, x ∈ q := by
  cases parts with
  | nil =>
    simp only [consHead, List.mem_singleton] at hp
    subst hp
    simp only [List.mem_singleton] at hx
    exact Or.inl hx
  | cons h t =>
    simp only [consHead, List.mem_cons] at hp
    rcases hp with rfl | hp
    · rcases List.mem_cons.mp hx with rfl | hx2
      · exact Or.inl rfl
      · exact Or.inr ⟨h, List.mem_cons_self h t, hx2⟩
    · exact Or.inr ⟨p, List.mem_cons_of_mem _ hp, hx⟩

theorem mem_goSplit {c0 : Char} {cs : List Char} :
    ∀ (l : List Char) (skip : Nat) (p : List Char),
      p ∈ goSplit c0 cs skip l → ∀ x ∈ p, x ∈ l := by
  intro l
  induction l with
  | nil =>
    intro skip p hp x hx
    simp only [goSplit, List.mem_singleton] at hp
    subst hp
    simp at hx
  | cons a l ih =>
    intro skip p hp x hx
    match skip with
    | 0 =>
      rw [goSplit] at hp
      by_cases hpre : (c0 :: cs).isPrefixOf (a :: l)
      · rw [if_pos hpre] at hp
        rcases List.mem_cons.mp hp with rfl | hp2
        · simp at hx
        · exact List.mem_cons_of_mem _ (ih cs.length p hp2 x hx)
      · rw [if_neg hpre] at hp
        rcases mem_consHead hp hx with rfl | ⟨q, hq, hxq⟩
        · exact List.mem_cons_self _ _
        · exact List.mem_cons_of_mem _ (ih 0 q hq x hxq)
    | skip + 1 =>
      rw [goSplit] at hp
      exact List.mem_cons_of_mem _ (ih skip p hp x hx)

theorem mem_joinSep {sep : List Char} :
    ∀ (ps : List (List Char)) (x : Char),
      x ∈ joinSep sep ps → x ∈ sep ∨ ∃ p ∈ ps, x ∈ p := by
  intro ps
  induction ps with
  | nil => intro x hx; simp [joinSep] at hx
  | cons p rest ih =>
    intro x hx
    cases rest with
    | nil =>
      simp only [joinSep] at hx
      exact Or.inr ⟨p, List.mem_singleton_self p, hx⟩
    | cons q rest2 =>
      simp only [joinSep, List.append_assoc, List.mem_append] at hx
      rcases hx with hx | hx | hx
      · exact Or.inr ⟨p, List.mem_cons_self _ _, hx⟩
      · exact Or.inl hx
      · rcases ih x hx with h | ⟨r, hr, hxr⟩
        · exact Or.inl h
        · exact Or.inr ⟨r, List.mem_cons_of_mem _ hr, hxr⟩

theorem mem_pyStrip {x : Char} {s : String} (h : x ∈ (pyStrip s).data) :
    x ∈ s.data := by
  simp only [pyStrip, List.mem_reverse] at h
  have h2 := List.dropWhile_subset (l := (s.data.dropWhile isPySpace).reverse) isPySpace h
  rw [List.mem_reverse] at h2
  exact List.dropWhile_subset isPySpace h2

theorem mem_wordsGo :
    ∀ (l acc w : List Char), w ∈ wordsGo acc l → ∀ x ∈ w, x ∈ acc ∨ x ∈ l := by
  intro l
  induction l with
  | nil =>
    intro acc w hw x hx
    by_cases ha : acc.isEmpty
    · simp [wordsGo, ha] at hw
    · simp only [wordsGo, ha, if_false, Bool.false_eq_true, List.mem_singleton] at hw
      subst hw
      exact Or.inl (List.mem_reverse.mp hx)
  | cons c l ih =>
    intro acc w hw x hx
    by_cases hc : isPySpace c
    · by_cases ha : acc.isEmpty
      · simp only [wordsGo, hc, ha, if_true] at hw
        rcases ih [] w hw x hx with h | h
        · simp at h
        · exact Or.inr (List.mem_cons_of_mem _ h)
      · simp only [wordsGo, hc, ha, if_true, Bool.false_eq_true, if_false,
          List.mem_cons] at hw
        rcases hw with rfl | hw
        · exact Or.inl (List.mem_reverse.mp hx)
        · rcases ih [] w hw x hx with h | h
          · simp at h
          · exact Or.inr (List.mem_cons_of_mem _ h)
    · simp only [wordsGo, hc, Bool.false_eq_true, if_false] at hw
      rcases ih (c :: acc) w hw x hx with h | h
      · rcases List.mem_cons.mp h with rfl | h2
        · exact Or.inr (List.mem_cons_self _ _)
        · exact Or.inl h2
      · exact Or.inr (List.mem_cons_of_mem _ h)

theorem goSplit_of_not_contains {c0 : Char} {cs : List Char} :
    ∀ {l : List Char}, listContains (c0 :: cs) l = false →
      goSplit c0 cs 0 l = [l] := by
  intro l
  induction l with
  | nil => intro _; rfl
  | cons a l ih =>
    intro h
    simp only [listContains, Bool.or_eq_false_iff] at h
    rw [goSplit, if_neg (by simp [h.1]), ih h.2]
    rfl

theorem tryFilterTitleNe_ok_of_forall {t : String} {cal : List Event}
    (h : ∀ e ∈ cal, e.title.isSome) :
    tryFilterTitleNe t cal
      = Except.ok (cal.filter fun e => !(e.title == some t)) := by
  induction cal with
  | nil => rfl
  | cons e rest ih =>
    obtain ⟨u, hu⟩ := Option.isSome_iff_exists.mp (h e (List.mem_cons_self e rest))
    have ih2 := ih fun f hf => h f (List.mem_cons_of_mem _ hf)
    rw [tryFilterTitleNe, hu, ih2]
    by_cases hut : u = t
    · simp [hu, hut, List.filter_cons]
    · simp [hu, hut, List.filter_cons]

theorem tryFilterTitleNe_error_of_exists {t : String} {cal : List Event}
    (h : ∃ e ∈ cal, e.title = none) :
    tryFilterTitleNe t cal = Except.error keyErrTitle := by
  induction cal with
  | nil => simp at h
  | cons e rest ih =>
    obtain ⟨f, hf, hft⟩ := h
    rcases List.mem_cons.mp hf with rfl | hf2
    · rw [tryFilterTitleNe, hft]
    · rw [tryFilterTitleNe, ih ⟨f, hf2, hft⟩]
      cases hmm : f.title <;> cases e.title <;> rfl

theorem mem_tryFilterTitleNe_of_ne {t : String} :
    ∀ {cal res : List Event} {e : Event},
      tryFilterTitleNe t cal = Except.ok res → e ∈ cal → e.title ≠ some t →
        e ∈ res := by
  intro cal
  induction cal with
  | nil => intro res e _ he; simp at he
  | cons f rest ih =>
    intro res e hok he hne
    rw [tryFilterTitleNe] at hok
    cases hft : f.title with
    | none => rw [hft] at hok; exact absurd hok (by simp)
    | some u =>
      rw [hft] at hok
      cases hrest : tryFilterTitleNe t rest with
      | error msg => rw [hrest] at hok; exact absurd hok (by simp)
      | ok l =>
        rw [hrest] at hok
        have hres : res = if u = t then l else f :: l := by
          cases hok; rfl
        rcases List.mem_cons.mp he with rfl | he2
        · have hut : ¬u = t := by
            intro hut; exact hne (hut ▸ hft)
          rw [hres, if_neg hut]
          exact List.mem_cons_self _ _
        · have hel : e ∈ l := ih hrest he2 hne
          rw [hres]
          by_cases hut : u = t
          · rwa [if_pos hut]
          · rw [if_neg hut]; exact List.mem_cons_of_mem _ hel

theorem tryFilterDateEq_ok_of_forall {d : String} {cal : List Event}
    (h : ∀ e ∈ cal, e.date.isSome) :
    tryFilterDateEq d cal
      = Except.ok (cal.filter fun e => e.date == some d) := by
  induction cal with
  | nil => rfl
  | cons e rest ih =>
    obtain ⟨u, hu⟩ := Option.isSome_iff_exists.mp (h e (List.mem_cons_self e rest))
    have ih2 := ih fun f hf => h f (List.mem_cons_of_mem _ hf)
    rw [tryFilterDateEq, hu, ih2]
    by_cases hud : u = d
    · simp [hu, hud, List.filter_cons]
    · simp [hu, hud, List.filter_cons]

theorem tryFilterDateEq_error_of_exists {d : String} {cal : List Event}
    (h : ∃ e ∈ cal, e.date = none) :
    tryFilterDateEq d cal = Except.error keyErrDate := by
  induction cal with
  | nil => simp at h
  | cons e rest ih =>
    obtain ⟨f, hf, hfd⟩ := h
    rcases List.mem_cons.mp hf with rfl | hf2
    · rw [tryFilterDateEq, hfd]
    · rw [tryFilterDateEq, ih ⟨f, hf2, hfd⟩]
      cases e.date <;> rfl

theorem mem_of_tryFilterDateEq_ok {d : String} :
    ∀ {cal res : List Event} {e : Event},
      tryFilterDateEq d cal = Except.ok res → e ∈ res →
        e ∈ cal ∧ e.date = some d := by
  intro cal
  induction cal with
  | nil =>
    intro res e hok he
    cases hok
    simp at he
  | cons f rest ih =>
    intro res e hok he
    rw [tryFilterDateEq] at hok
    cases hfd : f.date with
    | none => rw [hfd] at hok; exact absurd hok (by simp)
    | some u =>
      rw [hfd] at hok
      cases hrest : tryFilterDateEq d rest with
      | error msg => rw [hrest] at hok; exact absurd hok (by simp)
      | ok l =>
        rw [hrest] at hok
        have hres : res = if u = d then f :: l else l := by
          cases hok; rfl
        subst hres
        by_cases hud : u = d
        · rw [if_pos hud] at he
          rcases List.mem_cons.mp he with rfl | he2
          · exact ⟨List.mem_cons_self _ _, hud ▸ hfd⟩
          · obtain ⟨h1, h2⟩ := ih hrest he2
            exact ⟨List.mem_cons_of_mem _ h1, h2⟩
        · rw [if_neg hud] at he
          obtain ⟨h1, h2⟩ := ih hrest he
          exact ⟨List.mem_cons_of_mem _ h1, h2⟩

theorem decodeEvent_encodeEvent (e : Event) :
    decodeEvent (encodeEvent e) = some e := by
  rcases e with ⟨t, d, ti, de⟩
  cases t <;> cases d <;> cases ti <;> cases de <;> rfl

theorem decodeEvents_encodeEvents (l : List Event) :
    decodeEvents (encodeEvents l) = some l := by
  induction l with
  | nil => rfl
  | cons e rest ih =>
    simp only [encodeEvents, decodeEvents] at ih ⊢
    simp only [List.map_cons, decodeEventList, decodeEvent_encodeEvent, ih]

/-- C1: `add(e)` raises its validation error exactly when one of the keys
`title`, `date`, `time` is absent from the event dict, and in that case it
raises before mutating: the returned state (in-memory list and backing file)
is exactly the state before the call. -/
theorem c1_add_event_validation (e : Event) (s : AgentState) :
    ((add_event e s).2.isSome ↔ e.title = none ∨ e.date = none ∨ e.time = none)
    ∧ ((e.title = none ∨ e.date = none ∨ e.time = none) →
        add_event e s = (s, some valueErrMsg)) := by
  rcases e with ⟨t, d, ti, de⟩
  cases t <;> cases d <;> cases ti <;>
    simp [add_event, requiredKeys, evtGet, save_calendar]

/-- Witness for C1 at a concrete event missing its `title` key. -/
theorem c1_add_event_validation_witness :
    add_event ⟨none, some "2024-04-15", some "10:00", none⟩ initState
      = (initState, some valueErrMsg) :=
  (c1_add_event_validation ⟨none, some "2024-04-15", some "10:00", none⟩
    initState).2 (Or.inl rfl)

/-- C3 counterexample: an event whose required values are empty strings is
accepted by `add` (the code only checks key presence, not non-emptiness), so
an accepted event need not have non-empty `title`/`date`/`time`. -/
theorem c3_counterexample :
    (add_event ⟨some "", some "", some "", none⟩ initState).2 = none
    ∧ (⟨some "", some "", some "", none⟩ : Event).title = some ""
    ∧ String.length "" = 0 :=
  ⟨rfl, rfl, rfl⟩

/-- C3 amended: every event accepted by `add` (no validation error raised)
has the keys `title`, `date` and `time` present — though possibly bound to
empty strings. -/
theorem c3_add_requires_keys (e : Event) (s : AgentState)
    (h : (add_event e s).2 = none) :
    e.title.isSome ∧ e.date.isSome ∧ e.time.isSome := by
  rcases e with ⟨t, d, ti, de⟩
  cases t <;> cases d <;> cases ti <;>
    simp_all [add_event, requiredKeys, evtGet]

/-- Witness for the amended C3 at a concrete accepted event. -/
theorem c3_add_requires_keys_witness :
    (⟨some "a", some "b", some "c", none⟩ : Event).title.isSome
    ∧ (⟨some "a", some "b", some "c", none⟩ : Event).date.isSome
    ∧ (⟨some "a", some "b", some "c", none⟩ : Event).time.isSome :=
  c3_add_requires_keys ⟨some "a", some "b", some "c", none⟩ initState rfl

/-- C7: saving the store and loading it back yields the identical ordered
event sequence, for every store state. -/
theorem c7_save_load_roundtrip (s : AgentState) :
    load_calendar (save_calendar s).file = some s.calendar_data := by
  simp [save_calendar, load_calendar, decodeEvents_encodeEvents]

/-- C6: on a store of well-formed events (the spec's data model: the `date`
key is present), `eventsOn(d)` returns exactly the subsequence of stored
events whose date field string-equals `d`, in stored order, by plain string
comparison.  The operation is a pure read: its embedding neither takes nor
returns the mutable state, mirroring the method body, which is a single
`return` of a list comprehension. -/
theorem c6_events_on_filter (d : String) (s : AgentState)
    (h : ∀ e ∈ s.calendar_data, e.date.isSome) :
    get_events_for_date d s.calendar_data
      = Except.ok (s.calendar_data.filter fun e => e.date == some d) :=
  tryFilterDateEq_ok_of_forall h

/-- Witness for C6 on a concrete two-event store. -/
theorem c6_events_on_filter_witness :
    get_events_for_date "2024-04-15"
      [⟨some "a", some "2024-04-15", some "10:00", none⟩,
       ⟨some "b", some "2024-04-16", some "11:00", none⟩]
      = Except.ok [⟨some "a", some "2024-04-15", some "10:00", none⟩] :=
  c6_events_on_filter "2024-04-15"
    ⟨[⟨some "a", some "2024-04-15", some "10:00", none⟩,
      ⟨some "b", some "2024-04-16", some "11:00", none⟩], none⟩
    (by decide)

/-- C5: on a store of well-formed events (`title` key present), `remove(t)`
raises no error (matched or not), keeps exactly the events whose title
differs from `t`, persists the filtered list, and afterwards `eventsOn`
never returns an event titled `t`. -/
theorem c5_remove_event_spec (t : String) (s : AgentState)
    (h : ∀ e ∈ s.calendar_data, e.title.isSome) :
    (remove_event t s).2 = none
    ∧ (remove_event t s).1.calendar_data
        = s.calendar_data.filter (fun e => !(e.title == some t))
    ∧ (remove_event t s).1.file
        = some (encodeEvents ((remove_event t s).1.calendar_data))
    ∧ (∀ d res, get_events_for_date d (remove_event t s).1.calendar_data
          = Except.ok res → ∀ e ∈ res, e.title ≠ some t) := by
  have hok := tryFilterTitleNe_ok_of_forall (t := t) h
  unfold remove_event
  rw [hok]
  refine ⟨rfl, rfl, rfl, ?_⟩
  intro d res hres e he hcontra
  have hmem := (mem_of_tryFilterDateEq_ok hres he).1
  have hpred := List.of_mem_filter hmem
  rw [hcontra] at hpred
  simp at hpred

/-- Witness for C5: removing title `a` from a concrete two-event store. -/
theorem c5_remove_event_spec_witness :
    (remove_event "a"
      ⟨[⟨some "a", some "2024-04-15", some "10:00", none⟩,
        ⟨some "b", some "2024-04-16", some "11:00", none⟩], none⟩).2 = none
    ∧ (remove_event "a"
      ⟨[⟨some "a", some "2024-04-15", some "10:00", none⟩,
        ⟨some "b", some "2024-04-16", some "11:00", none⟩], none⟩).1.calendar_data
      = [⟨some "b", some "2024-04-16", some "11:00", none⟩] :=
  ⟨(c5_remove_event_spec "a"
      ⟨[⟨some "a", some "2024-04-15", some "10:00", none⟩,
        ⟨some "b", some "2024-04-16", some "11:00", none⟩], none⟩ (by decide)).1,
   (c5_remove_event_spec "a"
      ⟨[⟨some "a", some "2024-04-15", some "10:00", none⟩,
        ⟨some "b", some "2024-04-16", some "11:00", none⟩], none⟩ (by decide)).2.1⟩

/-- C2: adding an event whose `title`, `date`, `time` are present and
non-empty succeeds, appends the event at the end of the stored sequence, and
a subsequent `eventsOn(e.date)` (well-defined on the well-formed store)
includes it. -/
theorem c2_add_then_query (e : Event) (s : AgentState) (t d ti : String)
    (ht : e.title = some t) (ht2 : t ≠ "")
    (hd : e.date = some d) (hd2 : d ≠ "")
    (hti : e.time = some ti) (hti2 : ti ≠ "")
    (hwf : ∀ f ∈ s.calendar_data, f.date.isSome) :
    (add_event e s).2 = none
    ∧ (add_event e s).1.calendar_data = s.calendar_data ++ [e]
    ∧ ∃ res, get_events_for_date d (add_event e s).1.calendar_data
        = Except.ok res ∧ e ∈ res := by
  rcases e with ⟨t0, d0, ti0, de0⟩
  cases ht
  cases hd
  cases hti
  have hsucc : (requiredKeys.all
      fun k => (evtGet ⟨some t, some d, some ti, de0⟩ k).isSome) = true := rfl
  simp only [add_event, hsucc, Bool.not_true, Bool.false_eq_true, if_false]
  refine ⟨trivial, rfl, ?_⟩
  have hwf2 : ∀ f ∈ s.calendar_data ++ [(⟨some t, some d, some ti, de0⟩ : Event)],
      f.date.isSome := by
    intro f hf
    rcases List.mem_append.mp hf with hmem | hmem
    · exact hwf f hmem
    · rw [List.mem_singleton.mp hmem]
      rfl
  refine ⟨_, tryFilterDateEq_ok_of_forall hwf2, ?_⟩
  apply List.mem_filter.mpr
  refine ⟨List.mem_append_right _ (List.mem_singleton_self _), by simp⟩

/-- Witness for C2 on the spec's first scenario event, from the empty store. -/
theorem c2_add_then_query_witness :
    (add_event ⟨some "Team Meeting", some "2024-04-15", some "10:00",
        some "Quarterly review"⟩ initState).2 = none
    ∧ (add_event ⟨some "Team Meeting", some "2024-04-15", some "10:00",
        some "Quarterly review"⟩ initState).1.calendar_data
      = initState.calendar_data ++
          [⟨some "Team Meeting", some "2024-04-15", some "10:00",
            some "Quarterly review"⟩]
    ∧ ∃ res, get_events_for_date "2024-04-15"
        (add_event ⟨some "Team Meeting", some "2024-04-15", some "10:00",
          some "Quarterly review"⟩ initState).1.calendar_data
        = Except.ok res
        ∧ (⟨some "Team Meeting", some "2024-04-15", some "10:00",
            some "Quarterly review"⟩ : Event) ∈ res :=
  c2_add_then_query _ initState "Team Meeting" "2024-04-15" "10:00"
    rfl (by decide) rfl (by decide) rfl (by decide) (by decide)

/-- C10: `remove` and `eventsOn` read `title` (resp. `date`) of every stored
event unguarded: with the key present everywhere they are total; a stored
event object lacking the key (such as one loaded from the file content
`[ \x7b \x7d ]`, last conjunct) makes the operation raise a `KeyError`, and for
`remove` the raise happens before the list or the file is modified. -/
theorem c10_unguarded_key_reads (t d : String) (s : AgentState) :
    ((∀ e ∈ s.calendar_data, e.title.isSome) → (remove_event t s).2 = none)
    ∧ ((∃ e ∈ s.calendar_data, e.title = none) →
        remove_event t s = (s, some keyErrTitle))
    ∧ ((∀ e ∈ s.calendar_data, e.date.isSome) →
        ∃ res, get_events_for_date d s.calendar_data = Except.ok res)
    ∧ ((∃ e ∈ s.calendar_data, e.date = none) →
        get_events_for_date d s.calendar_data = Except.error keyErrDate)
    ∧ load_calendar (some (J.arr [J.obj []])) = some [⟨none, none, none, none⟩] := by
  refine ⟨?_, ?_, ?_, ?_, rfl⟩
  · intro h
    unfold remove_event
    rw [tryFilterTitleNe_ok_of_forall h]
  · intro h
    unfold remove_event
    rw [tryFilterTitleNe_error_of_exists h]
  · intro h
    exact ⟨_, tryFilterDateEq_ok_of_forall h⟩
  · intro h
    exact tryFilterDateEq_error_of_exists h

/-- Witness for C10: removing from a store holding one title-less event
raises the `KeyError` and leaves the state exactly as it was. -/
theorem c10_unguarded_key_reads_witness :
    remove_event "x" ⟨[⟨none, some "2024-01-01", none, none⟩], some (J.arr [])⟩
      = (⟨[⟨none, some "2024-01-01", none, none⟩], some (J.arr [])⟩,
          some keyErrTitle) :=
  (c10_unguarded_key_reads "x" "2024-01-01"
    ⟨[⟨none, some "2024-01-01", none, none⟩], some (J.arr [])⟩).2.1
    ⟨⟨none, some "2024-01-01", none, none⟩, List.mem_singleton_self _, rfl⟩

/-- C8: a message (after the initial lowercasing) containing neither marker
is silently ignored — state unchanged, no error; a message containing
`add event` but no occurrence of `on` raises the unguarded `IndexError` of
`parts[1]`, which propagates with the state unchanged. -/
theorem c8_process_message_dispatch (m : String) (s : AgentState) :
    ((pyContainsB (pyLower m) "add event" = false ∧
      pyContainsB (pyLower m) "remove event" = false) →
        process_message m s = (s, none))
    ∧ ((pyContainsB (pyLower m) "add event" = true ∧
        pyContainsB (pyLower m) "on" = false) →
          process_message m s = (s, some indexErrMsg)) := by
  constructor
  · rintro ⟨h1, h2⟩
    simp [process_message, h1, h2]
  · rintro ⟨h1, h2⟩
    have hc : listContains ('o' :: ['n']) (pyLower m).data = false := h2
    have hsplit : pySplit (pyLower m) "on" = [String.mk (pyLower m).data] := by
      show (listSplitOn "on".data (pyLower m).data).map String.mk = _
      have h3 : listSplitOn "on".data (pyLower m).data
          = goSplit 'o' ['n'] 0 (pyLower m).data := rfl
      rw [h3, goSplit_of_not_contains hc]
      rfl
    simp [process_message, h1, hsplit]

/-- Witness for C8: a message with no marker is ignored, and an `add event`
message without `on` errors out. -/
theorem c8_process_message_dispatch_witness :
    process_message "hello there" initState = (initState, none)
    ∧ process_message "add event team meeting" initState
        = (initState, some indexErrMsg) :=
  ⟨(c8_process_message_dispatch "hello there" initState).1 ⟨rfl, rfl⟩,
   (c8_process_message_dispatch "add event team meeting" initState).2 ⟨rfl, rfl⟩⟩

/-- C4 counterexample: on `"add event lunch on 2024-01-01 noon"` the code
splits on every occurrence of the substring `on` — including the one inside
`noon` — so the stored time is `"no"`, not the claimed second whitespace
token `"noon"` of the text after the (unique word) `on`. -/
theorem c4_counterexample :
    (process_message "add event lunch on 2024-01-01 noon" initState).1.calendar_data
      = [⟨some "lunch", some "2024-01-01", some "no", some ""⟩]
    ∧ (⟨some "lunch", some "2024-01-01", some "no", some ""⟩ : Event)
        ≠ ⟨some "lunch", some "2024-01-01", some "noon", some ""⟩ := by
  exact ⟨rfl, by decide⟩

/-- C4 amended: for a message containing `add event`, the parser splits the
lowercased message on every occurrence of the substring `on` (not on the word
`on`): the first segment, minus the `add event` marker, trimmed, is the
title; the second segment (the text between the first and second occurrence,
or all the text after a unique occurrence), trimmed and split on whitespace,
gives the date (first token) and time (second token, default `09:00`);
description is the empty string, and the event is passed to `add`. -/
theorem c4_add_parse (m : String) (s : AgentState)
    (p0 p1 : String) (rest : List String) (d : String) (ts : List String)
    (hadd : pyContainsB (pyLower m) "add event" = true)
    (hparts : pySplit (pyLower m) "on" = p0 :: p1 :: rest)
    (hdt : pySplitWs (pyStrip p1) = d :: ts) :
    process_message m s
      = add_event ⟨some (pyStrip (pyReplace p0 "add event" "")), some d,
          some (headD ts "09:00"), some ""⟩ s := by
  simp [process_message, hadd, hparts, hdt]

/-- Witness for the amended C4: the spec scenario message parses to the event
titled `project review` on `2024-04-20` at `14:00`, passed to `add`. -/
theorem c4_add_parse_witness :
    process_message "add event project review on 2024-04-20 14:00" initState
      = add_event ⟨some "project review", some "2024-04-20", some "14:00",
          some ""⟩ initState :=
  c4_add_parse "add event project review on 2024-04-20 14:00" initState
    "add event project review " " 2024-04-20 14:00" [] "2024-04-20" ["14:00"]
    rfl rfl rfl

theorem strFixed_of_subset {s t : String} (hsub : ∀ c ∈ s.data, c ∈ t.data)
    (ht : strFixed t) : strFixed s := fun c hc => ht c (hsub c hc)

theorem mem_pySplit_chars {m sep p : String} (hp : p ∈ pySplit m sep) :
    ∀ c ∈ p.data, c ∈ m.data := by
  intro c hc
  simp only [pySplit, List.mem_map] at hp
  obtain ⟨q, hq, rfl⟩ := hp
  cases hsep : sep.data with
  | nil =>
    rw [hsep] at hq
    simp only [listSplitOn, List.mem_singleton] at hq
    subst hq
    exact hc
  | cons c0 cs =>
    rw [hsep] at hq
    simp only [listSplitOn] at hq
    exact mem_goSplit m.data 0 q hq c hc

theorem mem_pyReplaceEmpty_chars {s old : String} :
    ∀ c ∈ (pyReplace s old "").data, c ∈ s.data := by
  intro c hc
  cases hold : old.data with
  | nil =>
    simp only [pyReplace, hold] at hc
    exact hc
  | cons c0 cs =>
    simp only [pyReplace, hold] at hc
    rcases mem_joinSep _ c hc with h | ⟨p, hp, hcp⟩
    · simp at h
    · exact mem_goSplit s.data 0 p hp c hcp

theorem mem_pySplitWs_chars {s w : String} (hw : w ∈ pySplitWs s) :
    ∀ c ∈ w.data, c ∈ s.data := by
  intro c hc
  simp only [pySplitWs, List.mem_map] at hw
  obtain ⟨q, hq, rfl⟩ := hw
  rcases mem_wordsGo s.data [] q hq c hc with h | h
  · simp at h
  · exact h

theorem strFixed_title_of_parse {m p0 : String}
    (hp : p0 ∈ pySplit (pyLower m) "on") :
    strFixed (pyStrip (pyReplace p0 "add event" "")) := by
  refine strFixed_of_subset ?_ (strFixed_pyLower m)
  intro c hc
  exact mem_pySplit_chars hp c (mem_pyReplaceEmpty_chars c (mem_pyStrip hc))

theorem strFixed_word_of_parse {m p1 w : String}
    (hp : p1 ∈ pySplit (pyLower m) "on") (hw : w ∈ pySplitWs (pyStrip p1)) :
    strFixed w := by
  refine strFixed_of_subset ?_ (strFixed_pyLower m)
  intro c hc
  exact mem_pySplit_chars hp c (mem_pyStrip (mem_pySplitWs_chars hw c hc))

theorem strFixed_remove_title (m : String) :
    strFixed (pyStrip (pyReplace (pyLower m) "remove event" "")) := by
  refine strFixed_of_subset ?_ (strFixed_pyLower m)
  intro c hc
  exact mem_pyReplaceEmpty_chars c (mem_pyStrip hc)

theorem tryFilterTitleNe_ok_subset {t : String} :
    ∀ {cal res : List Event} {e : Event},
      tryFilterTitleNe t cal = Except.ok res → e ∈ res → e ∈ cal := by
  intro cal
  induction cal with
  | nil =>
    intro res e hok he
    cases hok
    simp at he
  | cons f rest ih =>
    intro res e hok he
    rw [tryFilterTitleNe] at hok
    cases hft : f.title with
    | none => rw [hft] at hok; exact absurd hok (by simp)
    | some u =>
      rw [hft] at hok
      cases hrest : tryFilterTitleNe t rest with
      | error msg => rw [hrest] at hok; exact absurd hok (by simp)
      | ok l =>
        rw [hrest] at hok
        have hres : res = if u = t then l else f :: l := by
          cases hok; rfl
        subst hres
        by_cases hut : u = t
        · rw [if_pos hut] at he
          exact List.mem_cons_of_mem _ (ih hrest he)
        · rw [if_neg hut] at he
          rcases List.mem_cons.mp he with rfl | he2
          · exact List.mem_cons_self _ _
          · exact List.mem_cons_of_mem _ (ih hrest he2)

theorem process_message_shape (m : String) (s : AgentState) :
    (process_message m s).1.calendar_data = s.calendar_data
    ∨ (∃ ev : Event, eventLowercase ev ∧
        (process_message m s).1.calendar_data = s.calendar_data ++ [ev])
    ∨ (∃ t2 : String, strFixed t2 ∧
        tryFilterTitleNe t2 s.calendar_data
          = Except.ok ((process_message m s).1.calendar_data)) := by
  by_cases hadd : pyContainsB (pyLower m) "add event" = true
  · rcases hps : pySplit (pyLower m) "on" with _ | ⟨p0, ps⟩
    · left
      simp [process_message, hadd, hps]
    · rcases ps with _ | ⟨p1, rest⟩
      · left
        simp [process_message, hadd, hps]
      · rcases hdt : pySplitWs (pyStrip p1) with _ | ⟨d, ts⟩
        · left
          simp [process_message, hadd, hps, hdt]
        · right; left
          have hp0 : p0 ∈ pySplit (pyLower m) "on" := by
            rw [hps]; exact List.mem_cons_self _ _
          have hp1 : p1 ∈ pySplit (pyLower m) "on" := by
            rw [hps]; exact List.mem_cons_of_mem _ (List.mem_cons_self _ _)
          refine ⟨⟨some (pyStrip (pyReplace p0 "add event" "")), some d,
            some (headD ts "09:00"), some ""⟩, ⟨?_, ?_, ?_, ?_⟩, ?_⟩
          · intro v hv
            rw [Option.some.injEq] at hv
            subst hv
            exact strFixed_title_of_parse hp0
          · intro v hv
            rw [Option.some.injEq] at hv
            subst hv
            exact strFixed_word_of_parse hp1 (by rw [hdt]; exact List.mem_cons_self _ _)
          · intro v hv
            rw [Option.some.injEq] at hv
            subst hv
            cases ts with
            | nil => intro c hc; revert c; decide
            | cons a ts2 =>
              exact strFixed_word_of_parse hp1
                (by rw [hdt]; exact List.mem_cons_of_mem _ (List.mem_cons_self _ _))
          · intro v hv
            rw [Option.some.injEq] at hv
            subst hv
            intro c hc
            simp at hc
          · simp only [process_message, hadd, if_true, hps, hdt]
            rfl
  · by_cases hrem : pyContainsB (pyLower m) "remove event" = true
    · cases hres : tryFilterTitleNe
          (pyStrip (pyReplace (pyLower m) "remove event" "")) s.calendar_data with
      | error msg =>
        left
        simp [process_message, hadd, hrem, remove_event, hres]
      | ok l =>
        right; right
        refine ⟨pyStrip (pyReplace (pyLower m) "remove event" ""),
          strFixed_remove_title m, ?_⟩
        rw [hres]
        simp [process_message, hadd, hrem, remove_event, hres, save_calendar]
    · left
      simp [process_message, hadd, hrem]

/-- C9: `process_message` lowercases its whole input first, so it is
case-insensitive end to end (same result on `m` and on `lowercase(m)`); every
event the parser stores has entirely lowercase fields (no uppercase ASCII
letter); and an event whose title contains an uppercase character, added
directly through `add`, survives every `process_message` call — no parsed
`remove event` command can ever match it. -/
theorem c9_lowercase_end_to_end (m : String) (s : AgentState) :
    process_message m s = process_message (pyLower m) s
    ∧ (∀ e ∈ (process_message m s).1.calendar_data,
        e ∈ s.calendar_data ∨ eventLowercase e)
    ∧ (∀ e t, e ∈ s.calendar_data → e.title = some t → ¬ strFixed t →
        e ∈ (process_message m s).1.calendar_data) := by
  have hmap : (m.data.map pyCharLower).map pyCharLower = m.data.map pyCharLower := by
    rw [List.map_map]
    exact List.map_congr_left fun a _ => pyCharLower_idem a
  have hidem : pyLower (pyLower m) = pyLower m := congrArg String.mk hmap
  refine ⟨?_, ?_, ?_⟩
  · simp only [process_message, hidem]
  · intro e he
    rcases process_message_shape m s with hsh | ⟨ev, hlc, hsh⟩ | ⟨t2, hfix, hsh⟩
    · rw [hsh] at he
      exact Or.inl he
    · rw [hsh] at he
      rcases List.mem_append.mp he with h | h
      · exact Or.inl h
      · rw [List.mem_singleton.mp h]
        exact Or.inr hlc
    · exact Or.inl (tryFilterTitleNe_ok_subset hsh he)
  · intro e t hmem ht hnf
    rcases process_message_shape m s with hsh | ⟨ev, hlc, hsh⟩ | ⟨t2, hfix, hsh⟩
    · rw [hsh]
      exact hmem
    · rw [hsh]
      exact List.mem_append_left _ hmem
    · refine mem_tryFilterTitleNe_of_ne hsh hmem ?_
      rw [ht]
      intro hcontra
      rw [Option.some.injEq] at hcontra
      subst hcontra
      exact hnf hfix

/-- Witness for C9: the uppercase-titled event `Lunch`, present in the store,
survives the parsed command `remove event lunch`. -/
theorem c9_lowercase_end_to_end_witness :
    (⟨some "Lunch", some "2024-01-01", some "10:00", none⟩ : Event)
      ∈ (process_message "remove event lunch"
          ⟨[⟨some "Lunch", some "2024-01-01", some "10:00", none⟩],
            none⟩).1.calendar_data :=
  (c9_lowercase_end_to_end "remove event lunch"
    ⟨[⟨some "Lunch", some "2024-01-01", some "10:00", none⟩], none⟩).2.2
    ⟨some "Lunch", some "2024-01-01", some "10:00", none⟩ "Lunch"
    (List.mem_singleton_self _) rfl (by decide)

end CalendarAgent
